import Mathlib

/-!
Verification of texview's texture presentation pipeline.

A shallow embedding in Lean 4 of the core logic of `src/main.cpp` of the
texview texture viewer: the simple-swizzle compiler (`SetSwizzleFromSimple`),
the shader rebuild state transition (`UpdateShaders`), the mip/LOD policy
(`SetMipmapLevel`), the cubemap-cross layout and the per-face texture
coordinate generation (`DrawTexture` / `DrawCubeQuad`), the zoom-to-fit
computation (`ZoomFitToWindow`), the compact mipmap grid layout, and the
discrete zoom stepping/snapping (`CalcZoomLevel`).

C `double` values are modelled as exact rationals (ℚ); the two square-root
constants appearing in `CalcZoomLevel` are embedded as the exact rational
values of the corresponding IEEE-754 binary64 doubles.
-/

namespace Texview

/-! ## Simple swizzle compiler (SetSwizzleFromSimple, src/main.cpp:264-306) -/

/-- One iteration body of the `switch(c)` in `SetSwizzleFromSimple`
(src/main.cpp:273-303), for a non-NUL character `c`: first the uppercase
letters are shifted to lowercase (`c += 32`), then the channel expression is
selected; an invalid character leaves `args[i]` at its positional default
`dflt` (the code only prints a warning). -/
def swizzleChannelArg (c : Char) (dflt : String) : String :=
  let lc := if 'A' ≤ c ∧ c ≤ 'Z' then Char.ofNat (c.toNat + 32) else c
  if lc = '0' then "0.0"
  else if lc = '1' then "1.0"
  else if lc = 'r' ∨ lc = 'x' then "c.r"
  else if lc = 'g' ∨ lc = 'y' then "c.g"
  else if lc = 'b' ∨ lc = 'z' then "c.b"
  else if lc = 'a' ∨ lc = 'w' then "c.a"
  else dflt

/-- The initializer `const char* args[4] = { "0.0", "0.0", "0.0", "1.0" };`
(src/main.cpp:267). -/
def swizzleDefaults : List String := ["0.0", "0.0", "0.0", "1.0"]

/-- The `for(int i=0; i<4; ++i)` loop of `SetSwizzleFromSimple`
(src/main.cpp:268-304), with `fuel = 4 - i` iterations left.  `input` is the
content of the C char array `simpleSwizzle` up to (excluding) its NUL
terminator, so reading at a position `≥ input.length` yields the terminator;
hitting the terminator ends the loop (the code sets `i = 4`), leaving this
and all following channels at their default value. -/
def swizzleArgsGo (input : List Char) : ℕ → ℕ → List String → List String
  | 0, _, args => args
  | fuel + 1, i, args =>
    let c := input.getD i (Char.ofNat 0)
    if c = Char.ofNat 0 then args
    else swizzleArgsGo input fuel (i + 1) (args.set i (swizzleChannelArg c (args.getD i "")))

/-- The `args` array as it stands after the loop of `SetSwizzleFromSimple`. -/
def swizzleArgs (input : List Char) : List String :=
  swizzleArgsGo input 4 0 swizzleDefaults

/-- `SetSwizzleFromSimple` (src/main.cpp:264-306): the swizzle statement
appended via `AppendFormatted(swizzle, "c = vec4(%s, %s, %s, %s);\n", ...)`. -/
def setSwizzleFromSimple (input : List Char) : String :=
  let a := swizzleArgs input
  "c = vec4(" ++ a.getD 0 "" ++ ", " ++ a.getD 1 "" ++ ", " ++ a.getD 2 "" ++
    ", " ++ a.getD 3 "" ++ ");\n"

/-- The characters admitted by the swizzle input filter in `DrawSidebar`
(`const char* validChars = "rgbaRGBAxyzwXYZW01";`, src/main.cpp:1114). -/
def validSimpleSwizzleChars : List Char :=
  ['r', 'g', 'b', 'a', 'R', 'G', 'B', 'A', 'x', 'y', 'z', 'w', 'X', 'Y', 'Z', 'W', '0', '1']

/-- The per-channel mapping as the specification states it (case-insensitive:
r/x to c.r, g/y to c.g, b/z to c.b, a/w to c.a, literal 0 to 0.0 and 1
to 1.0); stated from the spec's words for comparison with the source-derived
`swizzleChannelArg`. -/
def specChannelMap (c : Char) : String :=
  if c = 'r' ∨ c = 'R' ∨ c = 'x' ∨ c = 'X' then "c.r"
  else if c = 'g' ∨ c = 'G' ∨ c = 'y' ∨ c = 'Y' then "c.g"
  else if c = 'b' ∨ c = 'B' ∨ c = 'z' ∨ c = 'Z' then "c.b"
  else if c = 'a' ∨ c = 'A' ∨ c = 'w' ∨ c = 'W' then "c.a"
  else if c = '0' then "0.0"
  else if c = '1' then "1.0"
  else ""

/-! ## Mip/LOD policy (SetMipmapLevel, src/main.cpp:405-426) -/

/-- `SetMipmapLevel` (src/main.cpp:405-426): result is the
`(GL_TEXTURE_BASE_LEVEL, GL_TEXTURE_MAX_LEVEL)` pair written with
`glTexParameteri`, or `none` when the function returns early without
touching any GPU texture parameter (`tex == 0 || numMips == 1`). -/
def setMipmapLevel (glTextureHandle : ℕ) (numMips mipLevel : ℤ) : Option (ℤ × ℤ) :=
  if glTextureHandle = 0 ∨ numMips = 1 then none
  else
    let m := min mipLevel (numMips - 1)
    if m < 0 then some (0, numMips - 1) else some (m, m)

/-! ## Shader rebuild (UpdateShaders, src/main.cpp:308-401) -/

/-- The GL shader-program state observed by `UpdateShaders`: the handle held
in the global `shaderProgram` (0 = no current program) together with the
list of program handles passed to `glDeleteProgram` so far. -/
structure ShaderState where
  shaderProgram : ℕ
  deletedPrograms : List ℕ
deriving DecidableEq

/-- `UpdateShaders` (src/main.cpp:308-401) as a transition on `ShaderState`.
`vertShader` and `fragShader` are the return values of the two
`CompileShader` calls and `linkedProg` the return value of
`CreateShaderProgram` (0 means failure in each case; `CreateShaderProgram`
deletes its own fresh program on link failure, which never touches the
current `shaderProgram`).  The function returns the new state and the bool
result: early return `false` if the vertex stage, the fragment stage or the
link fails; on success the old program (if any) is deleted and `linkedProg`
becomes current. -/
def updateShaders (vertShader fragShader linkedProg : ℕ) (st : ShaderState) :
    ShaderState × Bool :=
  if vertShader = 0 then (st, false)
  else if fragShader = 0 then (st, false)
  else if linkedProg = 0 then (st, false)
  else if st.shaderProgram ≠ 0 then
    ({ shaderProgram := linkedProg,
       deletedPrograms := st.shaderProgram :: st.deletedPrograms }, true)
  else ({ st with shaderProgram := linkedProg }, true)

/-! ## Cubemap cross layout (DrawTexture, src/main.cpp:682-711) and
per-face texture coordinates (DrawCubeQuad, src/main.cpp:570-646) -/

/-- `enum CubeFaceIndex` (src/main.cpp:560-567). -/
def FI_XPOS : ℕ := 0

/-- `FI_XNEG = 1`. -/
def FI_XNEG : ℕ := 1

/-- `FI_YPOS = 2`. -/
def FI_YPOS : ℕ := 2

/-- `FI_YNEG = 3`. -/
def FI_YNEG : ℕ := 3

/-- `FI_ZPOS = 4`. -/
def FI_ZPOS : ℕ := 4

/-- `FI_ZNEG = 5`. -/
def FI_ZNEG : ℕ := 5

/-- `const int middleIndices[4] = { FI_XNEG, FI_ZPOS, FI_XPOS, FI_ZNEG };`
(src/main.cpp:698). -/
def middleIndices : List ℕ := [FI_XNEG, FI_ZPOS, FI_XPOS, FI_ZNEG]

/-- The cubemap branch of `DrawTexture` (src/main.cpp:682-711): the sequence
of `DrawCubeQuad` calls, each recorded as (faceIndex, posX, posY); `offset`
is `texW + spacingBetweenMips` (the textures of a cubemap are square, so
`texW = texH`).  Top tile at (offset, 0), then the four middle tiles from
`middleIndices[i % 4]` for `i = cubeCrossVariant .. cubeCrossVariant+3`
stepping `posX` by `offset`, then the bottom tile at (offset, 2*offset). -/
def cubeCrossTiles (cubeCrossVariant : ℕ) (offset : ℚ) : List (ℕ × ℚ × ℚ) :=
  (FI_YPOS, offset, 0) ::
    ((List.range 4).map fun j =>
      (middleIndices.getD ((cubeCrossVariant + j) % 4) 0, (j : ℚ) * offset, offset))
    ++ [(FI_YNEG, offset, 2 * offset)]

/-- `struct vec4` (src/main.cpp:551-559), rationals in place of floats. -/
structure vec4 where
  x : ℚ
  y : ℚ
  z : ℚ
  w : ℚ
deriving DecidableEq

/-- The `switch(faceIndex)` of `DrawCubeQuad` (src/main.cpp:599-618) mapping
one corner `mc = (u, v)` (already scaled to [-1,1]) to the cube direction;
the `w` component is assigned separately.  `faceIndex` is always one of the
six `CubeFaceIndex` values, so the fallthrough value is unreachable. -/
def cubeFaceDir (faceIndex : ℕ) (mc : ℚ × ℚ) : vec4 :=
  if faceIndex = FI_XPOS then ⟨1, -mc.2, -mc.1, 0⟩
  else if faceIndex = FI_XNEG then ⟨-1, -mc.2, mc.1, 0⟩
  else if faceIndex = FI_YPOS then ⟨mc.1, 1, mc.2, 0⟩
  else if faceIndex = FI_YNEG then ⟨mc.1, -1, -mc.2, 0⟩
  else if faceIndex = FI_ZPOS then ⟨mc.1, -mc.2, 1, 0⟩
  else if faceIndex = FI_ZNEG then ⟨-mc.1, -mc.2, -1, 0⟩
  else ⟨0, 0, 0, 0⟩

/-- `DrawCubeQuad` (src/main.cpp:570-646): the four `glTexCoord4fv` values in
emission order.  The corner texture coordinates (built from `texCoordMin`
and `texCoordMax` in the order min/min, min/max, max/max, max/min) are
scaled from [0,1] to [-1,1], mapped through the per-face switch, get the
array index as 4th component, and, when `cubeCrossVariant > 0` and the face
is +Y or -Y, are cyclically rotated by `cubeCrossVariant` resp.
`4 - cubeCrossVariant` steps (`mapCoordsCopy[i] = mapCoords[(i+steps)%4]`). -/
def drawCubeQuadTexCoords (cubeCrossVariant faceIndex : ℕ) (arrayIndex : ℚ)
    (tcMin tcMax : ℚ × ℚ) : List vec4 :=
  let mn : ℚ × ℚ := (tcMin.1 * 2 - 1, tcMin.2 * 2 - 1)
  let mx : ℚ × ℚ := (tcMax.1 * 2 - 1, tcMax.2 * 2 - 1)
  let corners : List (ℚ × ℚ) := [(mn.1, mn.2), (mn.1, mx.2), (mx.1, mx.2), (mx.1, mn.2)]
  let mapCoords : List vec4 :=
    corners.map fun mc => { cubeFaceDir faceIndex mc with w := arrayIndex }
  if 0 < cubeCrossVariant ∧ (faceIndex = FI_YPOS ∨ faceIndex = FI_YNEG) then
    let rotationSteps :=
      if faceIndex = FI_YPOS then cubeCrossVariant else 4 - cubeCrossVariant
    (List.range 4).map fun i => mapCoords.getD ((i + rotationSteps) % 4) ⟨0, 0, 0, 0⟩
  else mapCoords

/-! ## Zoom to fit (ZoomFitToWindow, src/main.cpp:103-124) -/

/-- The zoom/pan state written by `ZoomFitToWindow`: the globals `zoomLevel`,
`transX`, `transY`. -/
structure ViewTransform where
  zoomLevel : ℚ
  transX : ℚ
  transY : ℚ
deriving DecidableEq

/-- Footprint width: `if(isCube) tw *= 4.0f;` (src/main.cpp:105-109) —
a cubemap is shown as a cross lying on the side, 4 cells wide. -/
def cubeFootprintW (tw : ℚ) (isCube : Bool) : ℚ := if isCube then tw * 4 else tw

/-- Footprint height: `if(isCube) th *= 3.0f;` — 3 cells high. -/
def cubeFootprintH (th : ℚ) (isCube : Bool) : ℚ := if isCube then th * 3 else th

/-- `ZoomFitToWindow` (src/main.cpp:103-124).  `display_w`/`display_h` is the
framebuffer size, `menuWidth` the sidebar width (`imGuiMenuWidth`). -/
def zoomFitToWindow (tw th : ℚ) (isCube : Bool)
    (display_w display_h menuWidth : ℚ) : ViewTransform :=
  let tw2 := cubeFootprintW tw isCube
  let th2 := cubeFootprintH th isCube
  let winW := display_w - menuWidth
  let zw := winW / tw2
  let zh := display_h / th2
  if zw < zh then
    { zoomLevel := zw, transX := 0,
      transY := ((⌊(1/2 : ℚ) * (display_h / zw - th2)⌋ : ℤ) : ℚ) }
  else
    { zoomLevel := zh,
      transX := if isCube then 0
                else ((⌊(1/2 : ℚ) * (winW / zh - tw2)⌋ : ℤ) : ℚ),
      transY := 0 }

/-! ## Zoom stepping and snapping (CalcZoomLevel, src/main.cpp:1212-1246) -/

/-- Exact rational value of the C double `sqrt(2.0)` (the IEEE-754 binary64
value nearest to the square root of two): 6369051672525773 * 2^-52. -/
def sqrt2d : ℚ := 6369051672525773 / 4503599627370496

/-- Exact rational value of the C double `1.0/sqrt(2.0)` (the binary64
quotient of 1.0 by `sqrt2d`): 1592262918131443 * 2^-51. -/
def invSqrt2d : ℚ := 1592262918131443 / 2251799813685248

/-- The stepping half of `CalcZoomLevel` (src/main.cpp:1214-1232), before the
snap: the `if(increase) {...} else {...}` ladder. -/
def calcZoomStep (zl : ℚ) (increase : Bool) : ℚ :=
  if increase then
    if 2 ≤ zl then zl + 1/2
    else if 1 ≤ zl then zl + 1/4
    else if 1/8 ≤ zl then zl + 1/8
    else zl * sqrt2d
  else
    if zl ≤ 1/8 then zl * invSqrt2d
    else if zl ≤ 1 then zl - 1/8
    else if zl ≤ 2 then zl - 1/4
    else zl - 1/2

/-- C `round()` — round half away from zero — restricted to nonnegative
arguments, which are the only ones `CalcZoomLevel` produces (`zl*2` under
`zl >= 1` and `zl*8` under `zl > 0.25`). -/
def roundPos (q : ℚ) : ℤ := ⌊q + 1/2⌋

/-- The snapping half of `CalcZoomLevel` (src/main.cpp:1234-1245): snap to
the nearest half-integer when `zl >= 1` and within `min(0.25, 0.1*zl)` of
it, to the nearest eighth when `0.25 < zl < 1` and within `0.05` of it;
`nearestHalf = round(zl*2.0)*0.5` and `nearestEighth = round(zl*8.0)*0.125`
are inlined. -/
def snapZoom (zl : ℚ) : ℚ :=
  if 1 ≤ zl then
    if |(roundPos (zl * 2) : ℚ) * (1/2) - zl| ≤ min (1/4 : ℚ) (1/10 * zl) then
      (roundPos (zl * 2) : ℚ) * (1/2)
    else zl
  else if 1/4 < zl then
    if |(roundPos (zl * 8) : ℚ) * (1/8) - zl| ≤ 1/20 then
      (roundPos (zl * 8) : ℚ) * (1/8)
    else zl
  else zl

/-- `CalcZoomLevel` (src/main.cpp:1212-1246): step, then snap. -/
def calcZoomLevel (zl : ℚ) (increase : Bool) : ℚ :=
  snapZoom (calcZoomStep zl increase)

/-! ## Compact mipmap grid (DrawTexture, MIPMAPS_COMPACT with
viewAtSameSize, src/main.cpp:720-743) -/

/-- Exact version of `ceil(sqrtf(q))` for a rational `q`: the least natural
`n` with `q ≤ n²` (0 for nonpositive `q`), computed from `Nat.sqrt` of the
ceiling of `q`. -/
def natCeilSqrt (q : ℚ) : ℕ :=
  if q ≤ 0 then 0
  else
    let m := (⌈q⌉).toNat
    let s := Nat.sqrt m
    if s * s = m then s else s + 1

/-- `int numHor = ceil(sqrtf(numMips * texH / texW));` (src/main.cpp:725):
the number of tiles placed per grid row. -/
def mipsCompactNumHor (numMips : ℕ) (texW texH : ℚ) : ℕ :=
  natCeilSqrt (numMips * texH / texW)

/-- The loop state of the MIPMAPS_COMPACT / viewAtSameSize branch
(src/main.cpp:726-743): current tile position, current horizontal step
(sign flips each row) and current row number. -/
structure MipGridState where
  posX : ℚ
  posY : ℚ
  hOffset : ℚ
  rowNum : ℕ
deriving DecidableEq

/-- One iteration tail of the loop body for index `i` (src/main.cpp:733-742):
`if(((i+1) % numHor) == 0)` start a new row below (keeping `posX`, flipping
the direction), else advance `posX` by `hOffset`. -/
def mipsCompactStep (numHor : ℕ) (vOffset : ℚ) (i : ℕ) (s : MipGridState) : MipGridState :=
  if (i + 1) % numHor = 0 then
    { s with posY := s.posY + vOffset, hOffset := -s.hOffset, rowNum := s.rowNum + 1 }
  else { s with posX := s.posX + s.hOffset }

/-- The loop state before drawing tile `i`: initially
`posX = posY = 0`, `hOffset = texW + spacingBetweenMips`
(`vOffset = texH + spacingBetweenMips`), `rowNum = 0`
(src/main.cpp:726-730). -/
def mipsCompactState (numHor : ℕ) (texW texH spacing : ℚ) : ℕ → MipGridState
  | 0 => ⟨0, 0, texW + spacing, 0⟩
  | i + 1 => mipsCompactStep numHor (texH + spacing) i
      (mipsCompactState numHor texW texH spacing i)

/-- The screen position tile `i` is drawn at (`DrawQuad(tex, i, ...,
ImVec2(posX, posY), ImVec2(texW, texH))`, src/main.cpp:732). -/
def mipsCompactTilePos (numHor : ℕ) (texW texH spacing : ℚ) (i : ℕ) : ℚ × ℚ :=
  ((mipsCompactState numHor texW texH spacing i).posX,
   (mipsCompactState numHor texW texH spacing i).posY)

/-! ## Lemmas and claim theorems -/

lemma valid_ne_nul {c : Char} (h : c ∈ validSimpleSwizzleChars) : ¬ c = Char.ofNat 0 := by
  fin_cases h <;> decide

lemma swizzleChannelArg_of_valid {c : Char} (h : c ∈ validSimpleSwizzleChars)
    (d : String) : swizzleChannelArg c d = specChannelMap c := by
  fin_cases h <;> rfl

/-- **C1.** For every simple-swizzle input (characters admitted by the UI
filter, at most 4 of them), the loop of `SetSwizzleFromSimple` maps each of
the 4 output channels independently and case-insensitively (r/x to c.r,
g/y to c.g, b/z to c.b, a/w to c.a, 0 to 0.0, 1 to 1.0), and when the input
is shorter than 4 characters the terminated channel and all following
channels take their positional defaults (0.0 for channels 0-2, 1.0 for
channel 3); in particular input "rg" yields `c = vec4(c.r, c.g, 0.0, 1.0);`. -/
theorem simple_swizzle_channelwise (input : List Char)
    (hlen : input.length ≤ 4)
    (hvalid : ∀ c ∈ input, c ∈ validSimpleSwizzleChars) :
    swizzleArgs input = (List.range 4).map (fun i =>
      if hi : i < input.length then specChannelMap (input.get ⟨i, hi⟩)
      else if i = 3 then "1.0" else "0.0")
    ∧ setSwizzleFromSimple ['r', 'g'] = "c = vec4(c.r, c.g, 0.0, 1.0);\n" := by
  refine ⟨?_, by decide⟩
  rcases input with _ | ⟨a, _ | ⟨b, _ | ⟨c, _ | ⟨d, _ | ⟨e, rest⟩⟩⟩⟩⟩
  · decide
  · have ha := swizzleChannelArg_of_valid (hvalid a (by simp))
    have ha0 := valid_ne_nul (hvalid a (by simp))
    simp [swizzleArgs, swizzleArgsGo, swizzleDefaults, ha0, ha, List.range_succ]
  · have ha := swizzleChannelArg_of_valid (hvalid a (by simp))
    have hb := swizzleChannelArg_of_valid (hvalid b (by simp))
    have ha0 := valid_ne_nul (hvalid a (by simp))
    have hb0 := valid_ne_nul (hvalid b (by simp))
    simp [swizzleArgs, swizzleArgsGo, swizzleDefaults, ha0, hb0, ha, hb, List.range_succ]
  · have ha := swizzleChannelArg_of_valid (hvalid a (by simp))
    have hb := swizzleChannelArg_of_valid (hvalid b (by simp))
    have hc := swizzleChannelArg_of_valid (hvalid c (by simp))
    have ha0 := valid_ne_nul (hvalid a (by simp))
    have hb0 := valid_ne_nul (hvalid b (by simp))
    have hc0 := valid_ne_nul (hvalid c (by simp))
    simp [swizzleArgs, swizzleArgsGo, swizzleDefaults, ha0, hb0, hc0, ha, hb, hc,
      List.range_succ]
  · have ha := swizzleChannelArg_of_valid (hvalid a (by simp))
    have hb := swizzleChannelArg_of_valid (hvalid b (by simp))
    have hc := swizzleChannelArg_of_valid (hvalid c (by simp))
    have hd := swizzleChannelArg_of_valid (hvalid d (by simp))
    have ha0 := valid_ne_nul (hvalid a (by simp))
    have hb0 := valid_ne_nul (hvalid b (by simp))
    have hc0 := valid_ne_nul (hvalid c (by simp))
    have hd0 := valid_ne_nul (hvalid d (by simp))
    simp [swizzleArgs, swizzleArgsGo, swizzleDefaults, ha0, hb0, hc0, hd0, ha, hb, hc, hd,
      List.range_succ]
  · simp at hlen

/-- Witness for C1 at the concrete input "B1" (and the claim's own "rg"
example): hypotheses discharged at a concrete input. -/
theorem simple_swizzle_channelwise_witness :
    swizzleArgs ['B', '1'] = ["c.b", "1.0", "0.0", "1.0"]
    ∧ setSwizzleFromSimple ['r', 'g'] = "c = vec4(c.r, c.g, 0.0, 1.0);\n" := by
  have h := simple_swizzle_channelwise ['B', '1'] (by decide) (by decide)
  refine ⟨?_, h.2⟩
  rw [h.1]
  decide

/-- **C3.** `SetMipmapLevel` with requested level -1 sets base-level 0 and
max-level numMips-1 (auto); with a requested level ≥ 0 it clamps the level
to [0, numMips-1] and sets base-level = max-level = the clamped value; and
it is a no-op (writes no GPU texture parameter) when the texture has only
1 mip level or no valid GPU handle. -/
theorem mip_policy_auto_forced_noop (tex : ℕ) (numMips lvl : ℤ)
    (htex : tex ≠ 0) (hmips : 1 < numMips) (hlvl : 0 ≤ lvl) :
    setMipmapLevel tex numMips (-1) = some (0, numMips - 1)
    ∧ setMipmapLevel tex numMips lvl =
        some (max 0 (min lvl (numMips - 1)), max 0 (min lvl (numMips - 1)))
    ∧ (∀ t : ℕ, ∀ n l : ℤ, t = 0 ∨ n = 1 → setMipmapLevel t n l = none) := by
  have hne : ¬ (tex = 0 ∨ numMips = 1) := by
    rintro (h | h)
    · exact htex h
    · omega
  have h0 : (0 : ℤ) ≤ min lvl (numMips - 1) := le_min hlvl (by omega)
  refine ⟨?_, ?_, ?_⟩
  · have hlt : (-1 : ℤ) ⊓ (numMips - 1) < 0 :=
      lt_of_le_of_lt (min_le_left _ _) (by norm_num)
    simp only [setMipmapLevel]
    rw [if_neg hne, if_pos hlt]
  · simp only [setMipmapLevel]
    rw [if_neg hne, if_neg (not_lt.mpr h0), max_eq_right h0]
  · rintro t n l (h | h) <;> simp [setMipmapLevel, h]

/-- Witness for C3 at a concrete input: handle 7, 4 mip levels, requested
level 9 (clamped to 3). -/
theorem mip_policy_auto_forced_noop_witness :
    setMipmapLevel 7 4 (-1) = some (0, 3)
    ∧ setMipmapLevel 7 4 9 = some (3, 3)
    ∧ setMipmapLevel 0 4 2 = none ∧ setMipmapLevel 7 1 2 = none := by
  have h := mip_policy_auto_forced_noop 7 4 9 (by decide) (by decide) (by decide)
  refine ⟨by simpa using h.1, by simpa using h.2.1, ?_, ?_⟩
  · exact h.2.2 0 4 2 (Or.inl rfl)
  · exact h.2.2 7 1 2 (Or.inr rfl)

/-- **C4.** Shader rebuild is atomic with respect to the current program: if
any stage compilation or the link fails, the previously current
`shaderProgram` is left unchanged and nothing is deleted (so a failed
rebuild leaves the prior program intact, and a first-ever build failure
leaves no program, the handle staying 0); the old program is deleted exactly
on a successful link, at which point the new program becomes current. -/
theorem shader_rebuild_atomic (v f l : ℕ) (st : ShaderState) :
    (v = 0 ∨ f = 0 ∨ l = 0 → updateShaders v f l st = (st, false))
    ∧ (v ≠ 0 → f ≠ 0 → l ≠ 0 →
        updateShaders v f l st =
          ({ shaderProgram := l,
             deletedPrograms :=
               if st.shaderProgram ≠ 0 then st.shaderProgram :: st.deletedPrograms
               else st.deletedPrograms }, true)) := by
  constructor
  · rintro (h | h | h) <;> simp [updateShaders, h]
  · intro hv hf hl
    simp only [updateShaders, hv, hf, hl, if_false, ite_not]
    split
    · rename_i hP
      simp [hP]
    · rename_i hP
      simp [hP]

/-- Witness for C4 at concrete inputs: a failed fragment compile keeps the
old program 5, a successful rebuild replaces 5 by 9 and deletes 5. -/
theorem shader_rebuild_atomic_witness :
    updateShaders 3 0 9 ⟨5, []⟩ = (⟨5, []⟩, false)
    ∧ updateShaders 3 4 9 ⟨5, []⟩ = (⟨9, [5]⟩, true) := by
  refine ⟨(shader_rebuild_atomic 3 0 9 ⟨5, []⟩).1 (Or.inr (Or.inl rfl)), ?_⟩
  have h := (shader_rebuild_atomic 3 4 9 ⟨5, []⟩).2 (by decide) (by decide) (by decide)
  simpa using h

/-- **C5.** For every `cubeCrossVariant` in {0,1,2,3}, the cubemap cross
layout emits exactly 6 tiles whose face indices are the 6 distinct cube
faces; the first tile is the +Y face at top-center (x = offset, one cell
in), the last is the -Y face at bottom-center, and middle-row tile j
(drawn at x = j*offset on the middle row) shows face
`middleIndices[(cubeCrossVariant + j) % 4]`, i.e. the cyclic order
(X-, Z+, X+, Z-) starting at offset `cubeCrossVariant`; the variant changes
only this rotation, never the tile count. -/
theorem cube_cross_six_distinct_faces (variant : ℕ) (offset : ℚ)
    (hv : variant < 4) :
    (cubeCrossTiles variant offset).length = 6
    ∧ ((cubeCrossTiles variant offset).map (·.1)).Perm
        [FI_XPOS, FI_XNEG, FI_YPOS, FI_YNEG, FI_ZPOS, FI_ZNEG]
    ∧ (cubeCrossTiles variant offset).head? = some (FI_YPOS, offset, 0)
    ∧ (cubeCrossTiles variant offset).getLast? = some (FI_YNEG, offset, 2 * offset)
    ∧ (∀ j : ℕ, j < 4 →
        (cubeCrossTiles variant offset).getD (1 + j) (0, 0, 0) =
          (middleIndices.getD ((variant + j) % 4) 0, (j : ℚ) * offset, offset)) := by
  refine ⟨?_, ?_, ?_, ?_, ?_⟩
  · simp [cubeCrossTiles]
  · interval_cases variant <;>
      simp [cubeCrossTiles, middleIndices, List.range_succ] <;> decide
  · simp [cubeCrossTiles]
  · simp only [cubeCrossTiles]
    rw [List.getLast?_concat]
  · intro j hj
    interval_cases j <;>
      simp [cubeCrossTiles, List.range_succ]

/-- Witness for C5 at variant 2 with offset 130. -/
theorem cube_cross_six_distinct_faces_witness :
    (cubeCrossTiles 2 130).length = 6
    ∧ ((cubeCrossTiles 2 130).map (·.1)).Perm
        [FI_XPOS, FI_XNEG, FI_YPOS, FI_YNEG, FI_ZPOS, FI_ZNEG]
    ∧ (cubeCrossTiles 2 130).getD 1 (0, 0, 0) =
        (FI_XPOS, 0, 130) := by
  have h := cube_cross_six_distinct_faces 2 130 (by decide)
  refine ⟨h.1, h.2.1, ?_⟩
  have h2 := h.2.2.2.2 0 (by decide)
  simpa [middleIndices] using h2

/-- **C6.** `DrawCubeQuad` maps each quad corner (u,v) to the 3D direction of
the fixed per-face basis table (+X to (1,-v,-u), -X to (-1,-v,u), +Y to
(u,1,v), -Y to (u,-1,-v), +Z to (u,-v,1), -Z to (-u,-v,-1)), passes the
array layer as 4th coordinate component, and for `cubeCrossVariant != 0`
cyclically rotates the four texture-coordinate corners of the +Y tile by
`cubeCrossVariant` steps and those of the -Y tile by `4 - cubeCrossVariant`
steps. -/
theorem cube_quad_face_basis_and_rotation (variant faceIndex k : ℕ) (arrayIndex : ℚ)
    (tcMin tcMax : ℚ × ℚ)
    (hvar : 1 ≤ variant ∧ variant ≤ 3) (hface : faceIndex < 6) (hk : k < 4) :
    (∀ u v : ℚ,
      cubeFaceDir FI_XPOS (u, v) = ⟨1, -v, -u, 0⟩
      ∧ cubeFaceDir FI_XNEG (u, v) = ⟨-1, -v, u, 0⟩
      ∧ cubeFaceDir FI_YPOS (u, v) = ⟨u, 1, v, 0⟩
      ∧ cubeFaceDir FI_YNEG (u, v) = ⟨u, -1, -v, 0⟩
      ∧ cubeFaceDir FI_ZPOS (u, v) = ⟨u, -v, 1, 0⟩
      ∧ cubeFaceDir FI_ZNEG (u, v) = ⟨-u, -v, -1, 0⟩)
    ∧ ((drawCubeQuadTexCoords variant faceIndex arrayIndex tcMin tcMax).getD k
        ⟨0, 0, 0, 0⟩).w = arrayIndex
    ∧ (drawCubeQuadTexCoords variant FI_YPOS arrayIndex tcMin tcMax).getD k ⟨0, 0, 0, 0⟩
        = (drawCubeQuadTexCoords 0 FI_YPOS arrayIndex tcMin tcMax).getD
            ((k + variant) % 4) ⟨0, 0, 0, 0⟩
    ∧ (drawCubeQuadTexCoords variant FI_YNEG arrayIndex tcMin tcMax).getD k ⟨0, 0, 0, 0⟩
        = (drawCubeQuadTexCoords 0 FI_YNEG arrayIndex tcMin tcMax).getD
            ((k + (4 - variant)) % 4) ⟨0, 0, 0, 0⟩ := by
  obtain ⟨hv1, hv3⟩ := hvar
  refine ⟨?_, ?_, ?_, ?_⟩
  · intro u v
    refine ⟨rfl, rfl, rfl, rfl, rfl, rfl⟩
  · interval_cases variant <;> interval_cases faceIndex <;> interval_cases k <;>
      simp [drawCubeQuadTexCoords, cubeFaceDir, FI_XPOS, FI_XNEG, FI_YPOS, FI_YNEG,
        FI_ZPOS, FI_ZNEG, List.range_succ]
  · interval_cases variant <;> interval_cases k <;>
      simp [drawCubeQuadTexCoords, FI_YPOS, FI_YNEG, List.range_succ]
  · interval_cases variant <;> interval_cases k <;>
      simp [drawCubeQuadTexCoords, FI_YPOS, FI_YNEG, List.range_succ]

/-- Witness for C6 at variant 1, face +Z, corner 0, array layer 7, the
default texture-coordinate rectangle (0,0)-(1,1). -/
theorem cube_quad_face_basis_and_rotation_witness :
    (drawCubeQuadTexCoords 1 FI_ZPOS 7 (0, 0) (1, 1)).getD 0 ⟨0, 0, 0, 0⟩ =
      ⟨-1, 1, 1, 7⟩
    ∧ (drawCubeQuadTexCoords 1 FI_YPOS 7 (0, 0) (1, 1)).getD 0 ⟨0, 0, 0, 0⟩
        = (drawCubeQuadTexCoords 0 FI_YPOS 7 (0, 0) (1, 1)).getD 1 ⟨0, 0, 0, 0⟩ := by
  have h := cube_quad_face_basis_and_rotation 1 FI_ZPOS 0 7 (0, 0) (1, 1)
    (by decide) (by decide) (by decide)
  refine ⟨?_, ?_⟩
  · norm_num [drawCubeQuadTexCoords, cubeFaceDir, FI_XPOS, FI_XNEG, FI_YPOS, FI_YNEG,
      FI_ZPOS, FI_ZNEG]
  · simpa using h.2.2.1

/-- **C8, counterexample.** The claim says zoom-to-fit always "centers the
other dimension's slack via floor division of half the slack", but for a
cubemap whose height is the binding dimension the code sets `transX = 0`:
a 100x100 cubemap (footprint 400x300) in a 1000x300 window with sidebar 0
gets zoom 1 and `transX = 0`, while centering the horizontal slack would
give `floor(0.5*(1000/1 - 400)) = 300`. -/
theorem zoom_fit_cube_not_centered :
    (zoomFitToWindow 100 100 true 1000 300 0).zoomLevel = 1
    ∧ (zoomFitToWindow 100 100 true 1000 300 0).transX = 0
    ∧ ((⌊(1/2 : ℚ) * ((1000 - 0) / (zoomFitToWindow 100 100 true 1000 300 0).zoomLevel
        - cubeFootprintW 100 true)⌋ : ℤ) : ℚ) = 300
    ∧ (0 : ℚ) ≠ 300 := by
  norm_num [zoomFitToWindow, cubeFootprintW, cubeFootprintH]

/-- **C8, amended.** `ZoomFitToWindow` picks the scale that exactly fits the
binding dimension of the texture footprint (4x3 cells for a cubemap, else
native size) into the window minus the sidebar width — the zoom is the
minimum of the two per-axis fit ratios, the footprint fits both ways and at
least one dimension fits exactly — and centers the other dimension's slack
via floor division of half the slack, EXCEPT that for a cubemap whose
height is the binding dimension the horizontal pan is set to 0 instead of
centered; in particular, a non-cube texture of size (200,100) in a
(1000,500) viewport with sidebar width 0 gives zoomLevel = 5 exactly and
pan = (0,0). -/
theorem zoom_fit_min_and_centering (tw th dw dh mw : ℚ) (isCube : Bool)
    (htw : 0 < tw) (hth : 0 < th) :
    (zoomFitToWindow tw th isCube dw dh mw).zoomLevel
      = min ((dw - mw) / cubeFootprintW tw isCube) (dh / cubeFootprintH th isCube)
    ∧ ((dw - mw) / cubeFootprintW tw isCube < dh / cubeFootprintH th isCube →
        (zoomFitToWindow tw th isCube dw dh mw).transX = 0
        ∧ (zoomFitToWindow tw th isCube dw dh mw).transY =
            ((⌊(1/2 : ℚ) * (dh / ((dw - mw) / cubeFootprintW tw isCube)
                - cubeFootprintH th isCube)⌋ : ℤ) : ℚ))
    ∧ (dh / cubeFootprintH th isCube ≤ (dw - mw) / cubeFootprintW tw isCube →
        (zoomFitToWindow tw th isCube dw dh mw).transY = 0
        ∧ (zoomFitToWindow tw th isCube dw dh mw).transX =
            (if isCube then 0
             else ((⌊(1/2 : ℚ) * ((dw - mw) / (dh / cubeFootprintH th isCube)
                - cubeFootprintW tw isCube)⌋ : ℤ) : ℚ)))
    ∧ (zoomFitToWindow tw th isCube dw dh mw).zoomLevel * cubeFootprintW tw isCube
        ≤ dw - mw
    ∧ (zoomFitToWindow tw th isCube dw dh mw).zoomLevel * cubeFootprintH th isCube
        ≤ dh
    ∧ ((zoomFitToWindow tw th isCube dw dh mw).zoomLevel * cubeFootprintW tw isCube
          = dw - mw
       ∨ (zoomFitToWindow tw th isCube dw dh mw).zoomLevel * cubeFootprintH th isCube
          = dh)
    ∧ zoomFitToWindow 200 100 false 1000 500 0 = ⟨5, 0, 0⟩ := by
  have hW : 0 < cubeFootprintW tw isCube := by
    unfold cubeFootprintW
    split <;> linarith
  have hH : 0 < cubeFootprintH th isCube := by
    unfold cubeFootprintH
    split <;> linarith
  have hWmul : (dw - mw) / cubeFootprintW tw isCube * cubeFootprintW tw isCube
      = dw - mw := div_mul_cancel₀ _ (ne_of_gt hW)
  have hHmul : dh / cubeFootprintH th isCube * cubeFootprintH th isCube = dh :=
    div_mul_cancel₀ _ (ne_of_gt hH)
  have hconc : zoomFitToWindow 200 100 false 1000 500 0 = ⟨5, 0, 0⟩ := by
    norm_num [zoomFitToWindow, cubeFootprintW, cubeFootprintH]
  rcases lt_or_le ((dw - mw) / cubeFootprintW tw isCube)
      (dh / cubeFootprintH th isCube) with h | h
  · have hzoom : zoomFitToWindow tw th isCube dw dh mw =
        { zoomLevel := (dw - mw) / cubeFootprintW tw isCube, transX := 0,
          transY := ((⌊(1/2 : ℚ) * (dh / ((dw - mw) / cubeFootprintW tw isCube)
              - cubeFootprintH th isCube)⌋ : ℤ) : ℚ) } := by
      simp only [zoomFitToWindow]
      rw [if_pos h]
    rw [hzoom]
    refine ⟨(min_eq_left (le_of_lt h)).symm, fun _ => ⟨rfl, rfl⟩,
      fun hc => absurd h (not_lt.mpr hc), ?_, ?_, Or.inl hWmul, hconc⟩
    · exact le_of_eq hWmul
    · calc (dw - mw) / cubeFootprintW tw isCube * cubeFootprintH th isCube
          ≤ dh / cubeFootprintH th isCube * cubeFootprintH th isCube :=
            mul_le_mul_of_nonneg_right (le_of_lt h) (le_of_lt hH)
        _ = dh := hHmul
  · have hzoom : zoomFitToWindow tw th isCube dw dh mw =
        { zoomLevel := dh / cubeFootprintH th isCube,
          transX := (if isCube then 0
            else ((⌊(1/2 : ℚ) * ((dw - mw) / (dh / cubeFootprintH th isCube)
                - cubeFootprintW tw isCube)⌋ : ℤ) : ℚ)),
          transY := 0 } := by
      simp only [zoomFitToWindow]
      rw [if_neg (not_lt.mpr h)]
    rw [hzoom]
    refine ⟨(min_eq_right h).symm, fun hc => absurd hc (not_lt.mpr h),
      fun _ => ⟨rfl, rfl⟩, ?_, le_of_eq hHmul, Or.inr hHmul, hconc⟩
    calc dh / cubeFootprintH th isCube * cubeFootprintW tw isCube
        ≤ (dw - mw) / cubeFootprintW tw isCube * cubeFootprintW tw isCube :=
          mul_le_mul_of_nonneg_right h (le_of_lt hW)
      _ = dw - mw := hWmul

/-- Witness for C8 at the concrete cube input (100,100) in a (1000,300)
window and the claim's own non-cube example. -/
theorem zoom_fit_min_and_centering_witness :
    (zoomFitToWindow 100 100 true 1000 300 0).zoomLevel = 1
    ∧ (zoomFitToWindow 100 100 true 1000 300 0).transX = 0
    ∧ zoomFitToWindow 200 100 false 1000 500 0 = ⟨5, 0, 0⟩ := by
  have h := zoom_fit_min_and_centering 100 100 1000 300 0 true
    (by norm_num) (by norm_num)
  refine ⟨?_, ?_, h.2.2.2.2.2.2⟩
  · rw [h.1]
    norm_num [cubeFootprintW, cubeFootprintH]
  · have h2 := (h.2.2.1 (by norm_num [cubeFootprintW, cubeFootprintH])).2
    simpa using h2

lemma sqrt2d_bounds : 1 < sqrt2d ∧ sqrt2d < 2 := by norm_num [sqrt2d]

lemma invSqrt2d_bounds : 0 < invSqrt2d ∧ invSqrt2d < 1 := by norm_num [invSqrt2d]

/-- How far the snap can move a value: within the per-branch tolerance of
the source, and not at all at or below 1/4. -/
lemma snapZoom_dist (x : ℚ) :
    |snapZoom x - x| ≤
      (if 1 ≤ x then min (1/4 : ℚ) (1/10 * x) else if 1/4 < x then 1/20 else 0) := by
  unfold snapZoom
  split
  · split
    · assumption
    · simp only [sub_self, abs_zero]
      rename_i h1 _
      exact le_min (by norm_num) (by linarith)
  · split
    · split
      · assumption
      · simp
    · simp

/-- The snap never moves a positive value to zero or below. -/
lemma snapZoom_pos {x : ℚ} (hx : 0 < x) : 0 < snapZoom x := by
  have hd := snapZoom_dist x
  rcases le_or_lt 1 x with h1 | h1
  · rw [if_pos h1] at hd
    have : |snapZoom x - x| ≤ 1/4 := le_trans hd (min_le_left _ _)
    have := abs_le.mp this
    linarith [this.1]
  · rw [if_neg (not_le.mpr h1)] at hd
    rcases lt_or_le (1/4 : ℚ) x with h2 | h2
    · rw [if_pos h2] at hd
      have := abs_le.mp hd
      linarith [this.1]
    · rw [if_neg (not_lt.mpr h2)] at hd
      have := abs_le.mp hd
      linarith [this.1]

lemma calcZoomStep_up_ge2 {zl : ℚ} (h : 2 ≤ zl) : calcZoomStep zl true = zl + 1/2 := by
  unfold calcZoomStep
  simp only [if_true, if_pos h]

lemma calcZoomStep_up_12 {zl : ℚ} (h1 : 1 ≤ zl) (h2 : zl < 2) :
    calcZoomStep zl true = zl + 1/4 := by
  unfold calcZoomStep
  simp only [if_true]
  rw [if_neg (by linarith), if_pos h1]

lemma calcZoomStep_up_81 {zl : ℚ} (h1 : 1/8 ≤ zl) (h2 : zl < 1) :
    calcZoomStep zl true = zl + 1/8 := by
  unfold calcZoomStep
  simp only [if_true]
  rw [if_neg (by linarith), if_neg (by linarith), if_pos h1]

lemma calcZoomStep_up_lt8 {zl : ℚ} (h : zl < 1/8) : calcZoomStep zl true = zl * sqrt2d := by
  unfold calcZoomStep
  simp only [if_true]
  rw [if_neg (by linarith), if_neg (by linarith), if_neg (by linarith)]

lemma calcZoomStep_down_le8 {zl : ℚ} (h : zl ≤ 1/8) :
    calcZoomStep zl false = zl * invSqrt2d := by
  unfold calcZoomStep
  simp only [Bool.false_eq_true, if_false]
  rw [if_pos h]

lemma calcZoomStep_down_81 {zl : ℚ} (h1 : 1/8 < zl) (h2 : zl ≤ 1) :
    calcZoomStep zl false = zl - 1/8 := by
  unfold calcZoomStep
  simp only [Bool.false_eq_true, if_false]
  rw [if_neg (by linarith), if_pos h2]

lemma calcZoomStep_down_12 {zl : ℚ} (h1 : 1 < zl) (h2 : zl ≤ 2) :
    calcZoomStep zl false = zl - 1/4 := by
  unfold calcZoomStep
  simp only [Bool.false_eq_true, if_false]
  rw [if_neg (by linarith), if_neg (by linarith), if_pos h2]

lemma calcZoomStep_down_gt2 {zl : ℚ} (h : 2 < zl) : calcZoomStep zl false = zl - 1/2 := by
  unfold calcZoomStep
  simp only [Bool.false_eq_true, if_false]
  rw [if_neg (by linarith), if_neg (by linarith), if_neg (by linarith)]

/-- One increase step (including the snap) strictly increases a positive
zoom level. -/
lemma calcZoomLevel_increase_gt {zl : ℚ} (h : 0 < zl) : zl < calcZoomLevel zl true := by
  unfold calcZoomLevel
  rcases le_or_lt 2 zl with h2 | h2
  · rw [calcZoomStep_up_ge2 h2]
    have hd := snapZoom_dist (zl + 1/2)
    rw [if_pos (by linarith : (1 : ℚ) ≤ zl + 1/2)] at hd
    have hb := abs_le.mp (le_trans hd (min_le_left _ _))
    linarith [hb.1]
  · rcases le_or_lt 1 zl with h1 | h1
    · rw [calcZoomStep_up_12 h1 h2]
      have hd := snapZoom_dist (zl + 1/4)
      rw [if_pos (by linarith : (1 : ℚ) ≤ zl + 1/4)] at hd
      have hb := abs_le.mp (le_trans hd (min_le_right _ _))
      linarith [hb.1]
    · rcases le_or_lt (1/8 : ℚ) zl with h8 | h8
      · rw [calcZoomStep_up_81 h8 h1]
        have hd := snapZoom_dist (zl + 1/8)
        rcases le_or_lt 1 (zl + 1/8) with hx1 | hx1
        · rw [if_pos hx1] at hd
          have hb := abs_le.mp (le_trans hd (min_le_right _ _))
          linarith [hb.1]
        · rw [if_neg (not_le.mpr hx1)] at hd
          rcases lt_or_le (1/4 : ℚ) (zl + 1/8) with hx4 | hx4
          · rw [if_pos hx4] at hd
            have hb := abs_le.mp hd
            linarith [hb.1]
          · rw [if_neg (not_lt.mpr hx4)] at hd
            have hb := abs_le.mp hd
            linarith [hb.1]
      · rw [calcZoomStep_up_lt8 h8]
        have hs := sqrt2d_bounds
        have hgt : zl < zl * sqrt2d := by nlinarith [hs.1]
        have hlt4 : zl * sqrt2d < 1/4 := by nlinarith [hs.2]
        have hd := snapZoom_dist (zl * sqrt2d)
        rw [if_neg (by linarith : ¬ (1 : ℚ) ≤ zl * sqrt2d),
          if_neg (not_lt.mpr (le_of_lt hlt4))] at hd
        have hb := abs_le.mp hd
        linarith [hb.1]

/-- One decrease step (including the snap) strictly decreases a positive
zoom level. -/
lemma calcZoomLevel_decrease_lt {zl : ℚ} (h : 0 < zl) : calcZoomLevel zl false < zl := by
  unfold calcZoomLevel
  rcases le_or_lt zl (1/8) with h8 | h8
  · rw [calcZoomStep_down_le8 h8]
    have hi := invSqrt2d_bounds
    have hlt : zl * invSqrt2d < zl := by nlinarith [hi.2]
    have hle4 : zl * invSqrt2d ≤ 1/4 := by nlinarith [hi.2, hi.1]
    have hd := snapZoom_dist (zl * invSqrt2d)
    rw [if_neg (by linarith : ¬ (1 : ℚ) ≤ zl * invSqrt2d),
      if_neg (not_lt.mpr hle4)] at hd
    have hb := abs_le.mp hd
    linarith [hb.2]
  · rcases le_or_lt zl 1 with h1 | h1
    · rw [calcZoomStep_down_81 h8 h1]
      have hd := snapZoom_dist (zl - 1/8)
      rw [if_neg (by linarith : ¬ (1 : ℚ) ≤ zl - 1/8)] at hd
      rcases lt_or_le (1/4 : ℚ) (zl - 1/8) with hx | hx
      · rw [if_pos hx] at hd
        have hb := abs_le.mp hd
        linarith [hb.2]
      · rw [if_neg (not_lt.mpr hx)] at hd
        have hb := abs_le.mp hd
        linarith [hb.2]
    · rcases le_or_lt zl 2 with h2 | h2
      · rw [calcZoomStep_down_12 h1 h2]
        have hd := snapZoom_dist (zl - 1/4)
        rcases le_or_lt 1 (zl - 1/4) with hx1 | hx1
        · rw [if_pos hx1] at hd
          have hb := abs_le.mp (le_trans hd (min_le_right _ _))
          linarith [hb.2]
        · rw [if_neg (not_le.mpr hx1), if_pos (by linarith : (1/4 : ℚ) < zl - 1/4)] at hd
          have hb := abs_le.mp hd
          linarith [hb.2]
      · rw [calcZoomStep_down_gt2 h2]
        have hd := snapZoom_dist (zl - 1/2)
        rw [if_pos (by linarith : (1 : ℚ) ≤ zl - 1/2)] at hd
        have hb := abs_le.mp (le_trans hd (min_le_left _ _))
        linarith [hb.2]

/-- A zoom step in either direction keeps the zoom level strictly positive. -/
lemma calcZoomLevel_pos {zl : ℚ} (h : 0 < zl) (increase : Bool) :
    0 < calcZoomLevel zl increase := by
  cases increase
  · unfold calcZoomLevel
    apply snapZoom_pos
    rcases le_or_lt zl (1/8) with h8 | h8
    · rw [calcZoomStep_down_le8 h8]
      exact mul_pos h invSqrt2d_bounds.1
    · rcases le_or_lt zl 1 with h1 | h1
      · rw [calcZoomStep_down_81 h8 h1]
        linarith
      · rcases le_or_lt zl 2 with h2 | h2
        · rw [calcZoomStep_down_12 h1 h2]
          linarith
        · rw [calcZoomStep_down_gt2 h2]
          linarith
  · exact lt_trans h (calcZoomLevel_increase_gt h)

lemma floor_intCast_add_half (k : ℤ) : ⌊(k : ℚ) + 1/2⌋ = k := by
  rw [Int.floor_int_add]
  norm_num

/-- Half-integers at least 1 are fixed points of the snap. -/
lemma snapZoom_half_int (k : ℤ) (hk : 2 ≤ k) :
    snapZoom ((k : ℚ) * (1/2)) = (k : ℚ) * (1/2) := by
  have hk1 : (1 : ℚ) ≤ (k : ℚ) * (1/2) := by
    have : (2 : ℚ) ≤ (k : ℚ) := by exact_mod_cast hk
    linarith
  have hr : roundPos ((k : ℚ) * (1/2) * 2) = k := by
    unfold roundPos
    rw [show (k : ℚ) * (1/2) * 2 = (k : ℚ) by ring]
    exact floor_intCast_add_half k
  unfold snapZoom
  rw [if_pos hk1, hr]
  rw [if_pos (by simp only [sub_self, abs_zero]; exact le_min (by norm_num) (by linarith))]

/-- Eighths strictly between 1/4 and 1 are fixed points of the snap. -/
lemma snapZoom_eighth (m : ℤ) (h4 : 1/4 < (m : ℚ) * (1/8)) (h1 : (m : ℚ) * (1/8) < 1) :
    snapZoom ((m : ℚ) * (1/8)) = (m : ℚ) * (1/8) := by
  have hr : roundPos ((m : ℚ) * (1/8) * 8) = m := by
    unfold roundPos
    rw [show (m : ℚ) * (1/8) * 8 = (m : ℚ) by ring]
    exact floor_intCast_add_half m
  unfold snapZoom
  rw [if_neg (not_le.mpr h1), if_pos h4, hr]
  rw [if_pos (by simp only [sub_self, abs_zero]; norm_num)]

/-- Values at most 1/4 are fixed points of the snap. -/
lemma snapZoom_le_quarter {x : ℚ} (h : x ≤ 1/4) : snapZoom x = x := by
  unfold snapZoom
  rw [if_neg (by linarith : ¬ (1 : ℚ) ≤ x), if_neg (not_lt.mpr h)]

/-- The snap is idempotent. -/
lemma snapZoom_idem (x : ℚ) : snapZoom (snapZoom x) = snapZoom x := by
  rcases le_or_lt 1 x with h1 | h1
  · by_cases hc : |(roundPos (x * 2) : ℚ) * (1/2) - x| ≤ min (1/4 : ℚ) (1/10 * x)
    · have hs : snapZoom x = (roundPos (x * 2) : ℚ) * (1/2) := by
        unfold snapZoom
        rw [if_pos h1, if_pos hc]
      have hk : 2 ≤ roundPos (x * 2) := by
        unfold roundPos
        refine Int.le_floor.mpr ?_
        push_cast
        linarith
      rw [hs]
      exact snapZoom_half_int _ hk
    · have hs : snapZoom x = x := by
        unfold snapZoom
        rw [if_pos h1, if_neg hc]
      rw [hs]
      exact hs
  · by_cases h4 : (1/4 : ℚ) < x
    · by_cases hc : |(roundPos (x * 8) : ℚ) * (1/8) - x| ≤ (1/20 : ℚ)
      · have hs : snapZoom x = (roundPos (x * 8) : ℚ) * (1/8) := by
          unfold snapZoom
          rw [if_neg (not_le.mpr h1), if_pos h4, if_pos hc]
        have hb := abs_le.mp hc
        rw [hs]
        rcases le_or_lt 1 ((roundPos (x * 8) : ℚ) * (1/8)) with hm1 | hm1
        · have hm8 : roundPos (x * 8) = 8 := by
            have hup : ((roundPos (x * 8) : ℤ) : ℚ) < 9 := by linarith
            have hlo : (8 : ℚ) ≤ ((roundPos (x * 8) : ℤ) : ℚ) := by linarith
            have h1' : roundPos (x * 8) < 9 := by exact_mod_cast hup
            have h2' : 8 ≤ roundPos (x * 8) := by exact_mod_cast hlo
            omega
          rw [hm8]
          rw [show ((8 : ℤ) : ℚ) * (1/8) = ((2 : ℤ) : ℚ) * (1/2) by norm_num]
          exact snapZoom_half_int 2 (by norm_num)
        · rcases lt_or_le (1/4 : ℚ) ((roundPos (x * 8) : ℚ) * (1/8)) with hq | hq
          · exact snapZoom_eighth _ hq hm1
          · exact snapZoom_le_quarter hq
      · have hs : snapZoom x = x := by
          unfold snapZoom
          rw [if_neg (not_le.mpr h1), if_pos h4, if_neg hc]
        rw [hs]
        exact hs
    · have hs : snapZoom x = x := snapZoom_le_quarter (not_lt.mp h4)
      rw [hs]
      exact hs

/-- **C2, counterexample.** The claim asserts the same range boundaries in
both stepping directions, with a step of ±0.5 for zoom ≥ 2.0; but at
zoom = 2.0 the decrease direction takes the `zl <= 2.0` branch and steps by
-0.25: the pre-snap result is 7/4, not 2 - 0.5 = 3/2. -/
theorem zoom_step_boundary_cex :
    calcZoomStep 2 false = 7/4 ∧ (7/4 : ℚ) ≠ 2 - 1/2 := by
  constructor
  · rw [calcZoomStep_down_12 (by norm_num) (by norm_num)]
    norm_num
  · norm_num

/-- **C2, amended.** One pre-snap zoom step changes the zoom by the amount
assigned to its range, but the range boundaries differ by direction: the
increase ladder tests `zl >= bound` (so +0.5 for zoom ≥ 2, +0.25 for
1 ≤ zoom < 2, +0.125 for 0.125 ≤ zoom < 1, ×√2 for zoom < 0.125) while the
decrease ladder tests `zl <= bound` (so -0.5 for zoom > 2, -0.25 for
1 < zoom ≤ 2, -0.125 for 0.125 < zoom ≤ 1, ÷√2 for zoom ≤ 0.125); the
square-root factors are the exact values of the doubles `sqrt(2.0)` and
`1.0/sqrt(2.0)`. -/
theorem zoom_step_ranges (zl : ℚ) :
    (2 ≤ zl → calcZoomStep zl true = zl + 1/2)
    ∧ (1 ≤ zl → zl < 2 → calcZoomStep zl true = zl + 1/4)
    ∧ (1/8 ≤ zl → zl < 1 → calcZoomStep zl true = zl + 1/8)
    ∧ (zl < 1/8 → calcZoomStep zl true = zl * sqrt2d)
    ∧ (2 < zl → calcZoomStep zl false = zl - 1/2)
    ∧ (1 < zl → zl ≤ 2 → calcZoomStep zl false = zl - 1/4)
    ∧ (1/8 < zl → zl ≤ 1 → calcZoomStep zl false = zl - 1/8)
    ∧ (zl ≤ 1/8 → calcZoomStep zl false = zl * invSqrt2d) :=
  ⟨fun h => calcZoomStep_up_ge2 h,
   fun h1 h2 => calcZoomStep_up_12 h1 h2,
   fun h1 h2 => calcZoomStep_up_81 h1 h2,
   fun h => calcZoomStep_up_lt8 h,
   fun h => calcZoomStep_down_gt2 h,
   fun h1 h2 => calcZoomStep_down_12 h1 h2,
   fun h1 h2 => calcZoomStep_down_81 h1 h2,
   fun h => calcZoomStep_down_le8 h⟩

/-- Witness for C2 (amended) at concrete inputs in each direction. -/
theorem zoom_step_ranges_witness :
    calcZoomStep 3 true = 3 + 1/2 ∧ calcZoomStep 2 false = 2 - 1/4 := by
  refine ⟨(zoom_step_ranges 3).1 (by norm_num), ?_⟩
  exact (zoom_step_ranges 2).2.2.2.2.2.1 (by norm_num) (by norm_num)

/-- **C7.** Zoom stepping is strictly monotonic in the requested direction —
for every positive zoom, `CalcZoomLevel(zl, true) > zl` and
`CalcZoomLevel(zl, false) < zl` — and the post-step snap is idempotent:
snapping an already-snapped value returns it unchanged. -/
theorem zoom_monotone_and_snap_idem (zl x : ℚ) (h : 0 < zl) :
    zl < calcZoomLevel zl true ∧ calcZoomLevel zl false < zl
    ∧ snapZoom (snapZoom x) = snapZoom x :=
  ⟨calcZoomLevel_increase_gt h, calcZoomLevel_decrease_lt h, snapZoom_idem x⟩

/-- Witness for C7 at zoom 3 (and snap input 1/3). -/
theorem zoom_monotone_and_snap_idem_witness :
    (3 : ℚ) < calcZoomLevel 3 true ∧ calcZoomLevel 3 false < 3
    ∧ snapZoom (snapZoom (1/3)) = snapZoom (1/3) :=
  zoom_monotone_and_snap_idem 3 (1/3) (by norm_num)

/-- **C10.** For every strictly positive zoom value and either stepping
direction, `CalcZoomLevel` returns a strictly positive (in particular
nonzero) value, so the per-frame division of the pan offsets by `zoomLevel`
(src/main.cpp:836) is never a division by zero as long as the zoom started
positive and was only changed by stepping. -/
theorem zoom_step_stays_positive (zl : ℚ) (increase : Bool) (h : 0 < zl) :
    0 < calcZoomLevel zl increase ∧ calcZoomLevel zl increase ≠ 0 :=
  ⟨calcZoomLevel_pos h increase, ne_of_gt (calcZoomLevel_pos h increase)⟩

/-- Witness for C10 at zoom 1/10, decrease direction. -/
theorem zoom_step_stays_positive_witness :
    0 < calcZoomLevel (1/10) false ∧ calcZoomLevel (1/10) false ≠ 0 :=
  zoom_step_stays_positive (1/10) false (by norm_num)

/-- `natCeilSqrt q` is the ceiling of the square root: for positive `q` it
is the least natural `n` with `q ≤ n²` (every smaller natural has its
square strictly below `q`). -/
lemma natCeilSqrt_spec {q : ℚ} (hq : 0 < q) :
    q ≤ (natCeilSqrt q : ℚ) ^ 2
    ∧ ∀ k : ℕ, k < natCeilSqrt q → (k : ℚ) ^ 2 < q := by
  have hq0 : ¬ q ≤ 0 := not_le.mpr hq
  have hm1 : 1 ≤ ⌈q⌉ := Int.one_le_ceil_iff.mpr hq
  have hmcastZ : ((⌈q⌉.toNat : ℕ) : ℤ) = ⌈q⌉ := Int.toNat_of_nonneg (by omega)
  have hmcast : ((⌈q⌉.toNat : ℕ) : ℚ) = ((⌈q⌉ : ℤ) : ℚ) := by exact_mod_cast hmcastZ
  have hqm : q ≤ ((⌈q⌉.toNat : ℕ) : ℚ) := by
    rw [hmcast]
    exact Int.le_ceil q
  have hmq : ((⌈q⌉.toNat : ℕ) : ℚ) - 1 < q := by
    rw [hmcast]
    have := Int.ceil_lt_add_one q
    linarith
  have hm1' : 1 ≤ ⌈q⌉.toNat := by omega
  have hs2 : Nat.sqrt ⌈q⌉.toNat * Nat.sqrt ⌈q⌉.toNat ≤ ⌈q⌉.toNat := Nat.sqrt_le _
  have hs2' : ⌈q⌉.toNat < (Nat.sqrt ⌈q⌉.toNat + 1) * (Nat.sqrt ⌈q⌉.toNat + 1) :=
    Nat.lt_succ_sqrt _
  have hs1 : 1 ≤ Nat.sqrt ⌈q⌉.toNat := Nat.sqrt_pos.mpr (by omega)
  have hs1q : (1 : ℚ) ≤ (Nat.sqrt ⌈q⌉.toNat : ℚ) := by exact_mod_cast hs1
  unfold natCeilSqrt
  rw [if_neg hq0]
  simp only []
  by_cases hexact : Nat.sqrt ⌈q⌉.toNat * Nat.sqrt ⌈q⌉.toNat = ⌈q⌉.toNat
  · rw [if_pos hexact]
    have hcast : (Nat.sqrt ⌈q⌉.toNat : ℚ) * (Nat.sqrt ⌈q⌉.toNat : ℚ)
        = ((⌈q⌉.toNat : ℕ) : ℚ) := by exact_mod_cast hexact
    constructor
    · nlinarith
    · intro k hk
      have hk1 : (k : ℚ) + 1 ≤ (Nat.sqrt ⌈q⌉.toNat : ℚ) := by exact_mod_cast hk
      have hk0 : (0 : ℚ) ≤ (k : ℚ) := by positivity
      nlinarith
  · rw [if_neg hexact]
    have hlt : Nat.sqrt ⌈q⌉.toNat * Nat.sqrt ⌈q⌉.toNat + 1 ≤ ⌈q⌉.toNat :=
      by omega
    have hltq : (Nat.sqrt ⌈q⌉.toNat : ℚ) * (Nat.sqrt ⌈q⌉.toNat : ℚ) + 1
        ≤ ((⌈q⌉.toNat : ℕ) : ℚ) := by exact_mod_cast hlt
    have hupq : ((⌈q⌉.toNat : ℕ) : ℚ)
        ≤ ((Nat.sqrt ⌈q⌉.toNat : ℚ) + 1) * ((Nat.sqrt ⌈q⌉.toNat : ℚ) + 1) := by
      have : ⌈q⌉.toNat ≤ (Nat.sqrt ⌈q⌉.toNat + 1) * (Nat.sqrt ⌈q⌉.toNat + 1) := by omega
      exact_mod_cast this
    constructor
    · push_cast
      nlinarith
    · intro k hk
      have hks : k ≤ Nat.sqrt ⌈q⌉.toNat := by omega
      have hksq : (k : ℚ) ≤ (Nat.sqrt ⌈q⌉.toNat : ℚ) := by exact_mod_cast hks
      have hk0 : (0 : ℚ) ≤ (k : ℚ) := by positivity
      nlinarith

lemma mipsCompactState_rowNum (numHor : ℕ) (texW texH spacing : ℚ) (i : ℕ) :
    (mipsCompactState numHor texW texH spacing i).rowNum = i / numHor := by
  induction i with
  | zero => simp [mipsCompactState]
  | succ i ih =>
    rw [mipsCompactState, mipsCompactStep]
    by_cases hb : (i + 1) % numHor = 0
    · rw [if_pos hb]
      simp only [ih]
      rw [Nat.succ_div_of_dvd (Nat.dvd_of_mod_eq_zero hb)]
    · rw [if_neg hb]
      simp only [ih]
      rw [Nat.succ_div_of_not_dvd (fun hdd => hb (Nat.mod_eq_zero_of_dvd hdd))]

lemma mipsCompactState_posY (numHor : ℕ) (texW texH spacing : ℚ) (i : ℕ) :
    (mipsCompactState numHor texW texH spacing i).posY
      = ((i / numHor : ℕ) : ℚ) * (texH + spacing) := by
  induction i with
  | zero => simp [mipsCompactState]
  | succ i ih =>
    rw [mipsCompactState, mipsCompactStep]
    by_cases hb : (i + 1) % numHor = 0
    · rw [if_pos hb]
      simp only [ih]
      rw [Nat.succ_div_of_dvd (Nat.dvd_of_mod_eq_zero hb)]
      push_cast
      ring
    · rw [if_neg hb]
      simp only [ih]
      rw [Nat.succ_div_of_not_dvd (fun hdd => hb (Nat.mod_eq_zero_of_dvd hdd))]

lemma mipsCompactState_hOffset (numHor : ℕ) (texW texH spacing : ℚ) (i : ℕ) :
    (mipsCompactState numHor texW texH spacing i).hOffset
      = (-1) ^ (i / numHor) * (texW + spacing) := by
  induction i with
  | zero => simp [mipsCompactState]
  | succ i ih =>
    rw [mipsCompactState, mipsCompactStep]
    by_cases hb : (i + 1) % numHor = 0
    · rw [if_pos hb]
      simp only [ih]
      rw [Nat.succ_div_of_dvd (Nat.dvd_of_mod_eq_zero hb)]
      rw [pow_succ]
      ring
    · rw [if_neg hb]
      simp only [ih]
      rw [Nat.succ_div_of_not_dvd (fun hdd => hb (Nat.mod_eq_zero_of_dvd hdd))]

/-- **C9, counterexample.** The claim says the row count of the compact mip
grid equals ceil(sqrt(numMips x aspectRatio)); but that quantity is the
number of tiles per row (`numHor`): for 4 mips of base size 4x1 (aspect
1/4, spacing 2) the code computes `numHor = ceil(sqrt(1)) = 1` and lays the
4 tiles out in 4 distinct rows (y positions 0,3,6,9), not 1. -/
theorem mips_compact_rowcount_cex :
    mipsCompactNumHor 4 4 1 = 1
    ∧ ((List.range 4).map fun i => (mipsCompactState 1 4 1 2 i).rowNum) = [0, 1, 2, 3]
    ∧ ((List.range 4).map fun i => (mipsCompactState 1 4 1 2 i).posY) = [0, 3, 6, 9]
    ∧ (4 : ℕ) ≠ 1 := by
  refine ⟨?_, ?_, ?_, by decide⟩
  · have h1 : ((4 : ℕ) : ℚ) * 1 / 4 = 1 := by norm_num
    rw [mipsCompactNumHor, h1, natCeilSqrt]
    norm_num
  · norm_num [List.range_succ, mipsCompactState, mipsCompactStep]
  · norm_num [List.range_succ, mipsCompactState, mipsCompactStep]

/-- **C9, amended.** In MipmapsCompact mode with viewAtSameSize, the value
ceil(sqrt(numMips x aspectRatio)) (aspect = texH/texW) is the number of
tiles per row (`numHor`), not the row count: tile i sits in row
i / numHor (so the grid has ceil(numMips/numHor) rows), its y position is
its row number times the vertical pitch, the horizontal stepping direction
alternates every row (sign (-1)^row, serpentine), and consecutive tiles
i, i+1 are grid-adjacent: either in the same row exactly one horizontal
pitch (texW + spacing) apart, or in the same column exactly one vertical
pitch (texH + spacing) apart. -/
theorem mips_compact_grid (numMips numHor : ℕ) (texW texH spacing : ℚ) (i : ℕ)
    (_hn : numHor = mipsCompactNumHor numMips texW texH)
    (hw : 0 < texW + spacing) (hh : 0 < texH + spacing)
    (_hi : i + 1 < numMips) :
    (mipsCompactState numHor texW texH spacing i).rowNum = i / numHor
    ∧ (mipsCompactState numHor texW texH spacing i).posY
        = ((i / numHor : ℕ) : ℚ) * (texH + spacing)
    ∧ (mipsCompactState numHor texW texH spacing i).hOffset
        = (-1) ^ (i / numHor) * (texW + spacing)
    ∧ (((mipsCompactTilePos numHor texW texH spacing (i + 1)).2
          = (mipsCompactTilePos numHor texW texH spacing i).2
        ∧ |(mipsCompactTilePos numHor texW texH spacing (i + 1)).1
            - (mipsCompactTilePos numHor texW texH spacing i).1| = texW + spacing)
      ∨ ((mipsCompactTilePos numHor texW texH spacing (i + 1)).1
          = (mipsCompactTilePos numHor texW texH spacing i).1
        ∧ |(mipsCompactTilePos numHor texW texH spacing (i + 1)).2
            - (mipsCompactTilePos numHor texW texH spacing i).2| = texH + spacing)) := by
  refine ⟨mipsCompactState_rowNum numHor texW texH spacing i,
    mipsCompactState_posY numHor texW texH spacing i,
    mipsCompactState_hOffset numHor texW texH spacing i, ?_⟩
  unfold mipsCompactTilePos
  rw [show mipsCompactState numHor texW texH spacing (i + 1)
      = mipsCompactStep numHor (texH + spacing) i
          (mipsCompactState numHor texW texH spacing i) from rfl]
  unfold mipsCompactStep
  by_cases hb : (i + 1) % numHor = 0
  · rw [if_pos hb]
    right
    refine ⟨rfl, ?_⟩
    simp only [add_sub_cancel_left]
    exact abs_of_pos hh
  · rw [if_neg hb]
    left
    refine ⟨rfl, ?_⟩
    simp only [add_sub_cancel_left]
    rw [mipsCompactState_hOffset numHor texW texH spacing i]
    rw [abs_mul, abs_pow, abs_neg, abs_one, one_pow, one_mul]
    exact abs_of_pos hw

/-- Witness for C9 (amended) at 4 square mips (texW = texH = 1, spacing 0):
`numHor = ceil(sqrt(4)) = 2`, checked at tile i = 1. -/
theorem mips_compact_grid_witness :
    (mipsCompactState 2 1 1 0 1).rowNum = 1 / 2
    ∧ (mipsCompactState 2 1 1 0 1).posY = ((1 / 2 : ℕ) : ℚ) * (1 + 0)
    ∧ (mipsCompactState 2 1 1 0 1).hOffset = (-1) ^ (1 / 2 : ℕ) * (1 + 0)
    ∧ (((mipsCompactTilePos 2 1 1 0 (1 + 1)).2 = (mipsCompactTilePos 2 1 1 0 1).2
        ∧ |(mipsCompactTilePos 2 1 1 0 (1 + 1)).1 - (mipsCompactTilePos 2 1 1 0 1).1|
            = 1 + 0)
      ∨ ((mipsCompactTilePos 2 1 1 0 (1 + 1)).1 = (mipsCompactTilePos 2 1 1 0 1).1
        ∧ |(mipsCompactTilePos 2 1 1 0 (1 + 1)).2 - (mipsCompactTilePos 2 1 1 0 1).2|
            = 1 + 0)) := by
  refine mips_compact_grid 4 2 1 1 0 1 ?_ (by norm_num) (by norm_num) (by norm_num)
  have h1 : ((4 : ℕ) : ℚ) * 1 / 1 = 4 := by norm_num
  have hs : Nat.sqrt 4 = 2 := (Nat.eq_sqrt'.mpr (by norm_num)).symm
  have ht : (⌈(4 : ℚ)⌉).toNat = 4 := by
    norm_num
    decide
  rw [mipsCompactNumHor, h1, natCeilSqrt, if_neg (by norm_num : ¬ (4 : ℚ) ≤ 0)]
  simp only [ht, hs]
  norm_num

end Texview

